import Mathlib

/-!
Verification of the dev-tools-radar position assignment logic.

This file gives a shallow embedding of the core of the widget: the
deterministic hash (hashCode), the grouping of tool records by assessment
category (which mirrors the insertion-order semantics of a JavaScript
object built by reduce and iterated with Object.entries), the per-ring
radius and angle computation of the two radar variants of positionTools,
the ring label radii, and the SVG sector and arc path construction.

Modelling conventions:
* JavaScript IEEE-754 number arithmetic on the geometric quantities is
  idealized as exact rational arithmetic; the stated inequalities all hold
  with margins far larger than double rounding error.
* The angle of a placed tool is stored in units of pi radians (the field
  angleFrac), so the whole placement core is computable over the rationals;
  the Cartesian projection with Real.cos and Real.sin is defined on top.
* A radius that the source computes as NaN (it arises from an undefined
  ring lookup for an unrecognized assessment string) is modelled as none.
* The assessment field is a raw string, as in the JSON data the source
  casts without validation, so records with unrecognized categories can
  be expressed.
-/

namespace Radar

/-- Reviewer record attached to a tool (name and photo URL). -/
structure Reviewer where
  name : String
  photoUrl : String
deriving DecidableEq, Repr

/-- Input tool record, after src/types/Tool.ts. -/
structure Tool where
  id : String
  title : String
  description : String
  url : String
  assessment : String
  ourPosition : Option String := none
  aiPosition : Option String := none
  reviewer : Option Reviewer := none
deriving DecidableEq, Repr

/-- Truncation of an integer to a signed 32 bit value, as the JavaScript
bitwise operators produce. -/
def toInt32 (n : ℤ) : ℤ := (n + 2 ^ 31) % 2 ^ 32 - 2 ^ 31

/-- One step of the rolling hash of the source: hash becomes
((hash << 5) - hash) + char, where the shift truncates to 32 bits and the
trailing bitwise-and (hash & hash) truncates the sum again. -/
def hashStep (h : ℤ) (c : ℕ) : ℤ := toInt32 (toInt32 (h * 32) - h + c)

/-- The hashCode function of the source: fold hashStep over the characters
of the string starting from 0 and take the absolute value.  Characters are
taken as code points, which agrees with charCodeAt on the basic
multilingual plane. -/
def hashCode (s : String) : ℕ :=
  (s.data.foldl (fun h c => hashStep h c.toNat) 0).natAbs

/-- radiusRandom of the source: (hash % 100) / 100, a value in [0, 1). -/
def radiusRandom (s : String) : ℚ := ((hashCode s % 100 : ℕ) : ℚ) / 100

/-- angleRandom of the source: ((hash * 7) % 100) / 100 - 0.5, a value in
[-0.5, 0.5). -/
def angleRandom (s : String) : ℚ := (((hashCode s * 7) % 100 : ℕ) : ℚ) / 100 - 1/2

/-- The RING_ORDER constant of the source. -/
def RING_ORDER : List String := ["adopt", "trial", "evaluate", "aware"]

/-- The ring radius table (the ringRadii object of the source). -/
structure RingRadii where
  adopt : ℚ
  trial : ℚ
  evaluate : ℚ
  aware : ℚ
deriving DecidableEq, Repr

/-- JavaScript property access ringRadii[a]: the matching field for the
four recognized keys, and undefined (none) for every other string. -/
def RingRadii.lookup (rr : RingRadii) (a : String) : Option ℚ :=
  if a = "adopt" then some rr.adopt
  else if a = "trial" then some rr.trial
  else if a = "evaluate" then some rr.evaluate
  else if a = "aware" then some rr.aware
  else none

/-- Well-formedness of the ring table: nonnegative and nested outward,
as required of ringBounds by the specification. -/
def RingRadii.Nested (rr : RingRadii) : Prop :=
  0 ≤ rr.adopt ∧ rr.adopt ≤ rr.trial ∧ rr.trial ≤ rr.evaluate ∧ rr.evaluate ≤ rr.aware

instance (rr : RingRadii) : Decidable rr.Nested := by
  unfold RingRadii.Nested; infer_instance

/-- The ring table the component computes from the available radius:
adopt 0.25, trial 0.45, evaluate 0.7, aware 0.95 of maxRadius. -/
def componentRingRadii (maxR : ℚ) : RingRadii :=
  { adopt := maxR * (1/4), trial := maxR * (9/20)
    evaluate := maxR * (7/10), aware := maxR * (19/20) }

/-- JavaScript Array.prototype.indexOf: index of the first occurrence,
or -1 when absent. -/
def jsIndexOf (l : List String) (s : String) : ℤ :=
  match l.findIdx? (fun x => x == s) with
  | some i => (i : ℤ)
  | none => -1

/-- JavaScript array indexing l[i]: undefined (none) for a negative or
out-of-range index. -/
def jsGet (l : List String) (i : ℤ) : Option String :=
  if 0 ≤ i then l[i.toNat]? else none

/-- The minRadius/maxRadius pair computed per category by the main
component (src/components/DevToolRadar.tsx).  AWARE tools use only 80%
of the space between the evaluate and aware radii; the else branch reads
the previous entry of RING_ORDER, which for an unrecognized assessment
yields an undefined lookup. -/
def ringMinMaxA (rr : RingRadii) (assessment : String) : Option ℚ × Option ℚ :=
  if assessment = "aware" then
    (some rr.evaluate, some (rr.evaluate + (rr.aware - rr.evaluate) * (4/5)))
  else if assessment = "adopt" then
    (some 0, rr.lookup assessment)
  else
    ((jsGet RING_ORDER (jsIndexOf RING_ORDER assessment - 1)).bind rr.lookup,
      rr.lookup assessment)

/-- The minRadius/maxRadius pair of the part_000 variant: no special case
for aware, whose ring spans the full band up to the aware radius. -/
def ringMinMaxB (rr : RingRadii) (assessment : String) : Option ℚ × Option ℚ :=
  ((if assessment = "adopt" then some 0
    else (jsGet RING_ORDER (jsIndexOf RING_ORDER assessment - 1)).bind rr.lookup),
    rr.lookup assessment)

/-- randomRadius of the source: minRadius + (maxRadius - minRadius) *
(0.3 + radiusRandom * 0.4), propagating an undefined bound to NaN (none). -/
def jitterRadius (mm : Option ℚ × Option ℚ) (f : ℚ) : Option ℚ :=
  match mm with
  | (some mn, some mx) => some (mn + (mx - mn) * (3/10 + f * (2/5)))
  | _ => none

/-- The angular step of a ring holding n tools, in units of pi radians:
angleStep = (PI / 2) / (n + 1). -/
def angleStepFrac (n : ℕ) : ℚ := (1/2) / (n + 1)

/-- A positioned tool.  The radius is in the abstract coordinate space of
the drawing (none models NaN); angleFrac is the final angle in units of
pi radians. -/
structure Placed where
  tool : Tool
  radius : Option ℚ
  angleFrac : ℚ
deriving DecidableEq, Repr

/-- Placement of one tool of a ring: the radius jitter and the final
angle angleStep * (index + 1) + angleRandom * angleStep * 0.3. -/
def placeTool (mm : Option ℚ × Option ℚ) (n index : ℕ) (tool : Tool) : Placed :=
  { tool := tool
    radius := jitterRadius mm (radiusRandom tool.id)
    angleFrac := angleStepFrac n * (index + 1)
      + angleRandom tool.id * angleStepFrac n * (3/10) }

/-- The inner forEach of positionTools: place every tool of one ring, with
its index in the group. -/
def positionRing (mm : Option ℚ × Option ℚ) (toolsInRing : List Tool) : List Placed :=
  toolsInRing.enum.map (fun p => placeTool mm toolsInRing.length p.1 p.2)

/-- One step of the grouping reduce of the source: append the tool to the
array stored under its assessment key, creating the key (at the end, in
insertion order) when it is new. -/
def insertGroup (acc : List (String × List Tool)) (t : Tool) : List (String × List Tool) :=
  if acc.any (fun g => g.1 = t.assessment) then
    acc.map (fun g => if g.1 = t.assessment then (g.1, g.2 ++ [t]) else g)
  else
    acc ++ [(t.assessment, [t])]

/-- groupedTools of the source: a JavaScript object built by reduce,
modelled as an association list whose order is the insertion order of the
keys, which is exactly the enumeration order of Object.entries. -/
def groupTools (tools : List Tool) : List (String × List Tool) :=
  tools.foldl insertGroup []

/-- The group stored under a key, or the empty list when absent. -/
def findGroup (acc : List (String × List Tool)) (a : String) : List Tool :=
  match acc.find? (fun g => g.1 = a) with
  | some g => g.2
  | none => []

/-- Generic positionTools: group the tools, then place each group with the
min/max radius bounds assigned to its key. -/
def positionToolsWith (mm : String → Option ℚ × Option ℚ) (tools : List Tool) : List Placed :=
  (groupTools tools).flatMap (fun g => positionRing (mm g.1) g.2)

/-- positionTools of the main component (src/components/DevToolRadar.tsx). -/
def positionTools (rr : RingRadii) (tools : List Tool) : List Placed :=
  positionToolsWith (ringMinMaxA rr) tools

/-- positionTools of the part_000 variant. -/
def positionToolsB (rr : RingRadii) (tools : List Tool) : List Placed :=
  positionToolsWith (ringMinMaxB rr) tools

/-- Whether an assessment string is one of the four recognized categories. -/
def recognizedCat (a : String) : Bool :=
  a == "adopt" || a == "trial" || a == "evaluate" || a == "aware"

/-- Fold step collecting the distinct keys of a sequence in order of first
appearance. -/
def insertKey (ks : List String) (s : String) : List String :=
  if s ∈ ks then ks else ks ++ [s]

/-- The distinct elements of a list of strings, in order of first
appearance. -/
def firstKeys (l : List String) : List String := l.foldl insertKey []

/-- The position of an assessment in RING_ORDER, with unrecognized values
ranked last; used to state the category order the specification claims
for the output. -/
def ringRank (a : String) : ℕ :=
  if a = "adopt" then 0
  else if a = "trial" then 1
  else if a = "evaluate" then 2
  else if a = "aware" then 3
  else 4

/-- Label radius computed by the ring label loop of the main component for
the entry of RING_ORDER at position index: 60% of the outer radius for
adopt, an interpolation 40% of the way from the evaluate radius to the
available radius for aware, and the midpoint of the previous and current
ring radii otherwise. -/
def labelRadiusA (rr : RingRadii) (maxR : ℚ) (index : ℕ) (assessment : String) : Option ℚ :=
  if assessment = "adopt" then
    (rr.lookup assessment).map (fun r => r * (3/5))
  else if assessment = "aware" then
    some (rr.evaluate + (maxR - rr.evaluate) * (2/5))
  else
    ((jsGet RING_ORDER ((index : ℤ) - 1)).bind rr.lookup).bind (fun innerRadius =>
      (rr.lookup assessment).map (fun outerRadius => (innerRadius + outerRadius) / 2))

/-- Label radius of the part_000 variant: no special case for aware. -/
def labelRadiusB (rr : RingRadii) (index : ℕ) (assessment : String) : Option ℚ :=
  if assessment = "adopt" then
    (rr.lookup assessment).map (fun r => r * (3/5))
  else
    ((jsGet RING_ORDER ((index : ℤ) - 1)).bind rr.lookup).bind (fun innerRadius =>
      (rr.lookup assessment).map (fun outerRadius => (innerRadius + outerRadius) / 2))

/-- The label radii of the four rings, in RING_ORDER, as computed by the
forEach loop of the main component. -/
def ringLabelRadiiA (rr : RingRadii) (maxR : ℚ) : List (String × Option ℚ) :=
  RING_ORDER.enum.map (fun p => (p.2, labelRadiusA rr maxR p.1 p.2))

/-- The label radii of the four rings for the part_000 variant. -/
def ringLabelRadiiB (rr : RingRadii) : List (String × Option ℚ) :=
  RING_ORDER.enum.map (fun p => (p.2, labelRadiusB rr p.1 p.2))

/-- Anchor point of a ring label: the point at 45 degrees into the
quadrant at the given radius, with the 6 unit downward text baseline
shift of the source applied to the y coordinate. -/
noncomputable def labelAnchor (cx cy : ℝ) (r : ℝ) : ℝ × ℝ :=
  (cx - r * Real.cos (Real.pi / 4), cy - r * Real.sin (Real.pi / 4) + 6)

/-- Abstract syntax of the SVG path commands the source emits (absolute
moveto, lineto, elliptical arc and closepath). -/
inductive PathCmd
  | move (x y : ℚ)
  | line (x y : ℚ)
  | arc (rx ry rot : ℚ) (largeArc sweep : Bool) (x y : ℚ)
  | close
deriving DecidableEq, Repr

/-- The filled sector path of a ring: a pie slice from the center when the
inner radius is 0, and otherwise a donut sector made of the outer arc, a
radial segment, the inner arc traversed back, and closepath. -/
def sectorPath (cx cy innerRadius outerRadius : ℚ) : List PathCmd :=
  if innerRadius = 0 then
    [PathCmd.move cx cy,
      PathCmd.line cx (cy - outerRadius),
      PathCmd.arc outerRadius outerRadius 0 false false (cx - outerRadius) cy,
      PathCmd.close]
  else
    [PathCmd.move cx (cy - innerRadius),
      PathCmd.line cx (cy - outerRadius),
      PathCmd.arc outerRadius outerRadius 0 false false (cx - outerRadius) cy,
      PathCmd.line (cx - innerRadius) cy,
      PathCmd.arc innerRadius innerRadius 0 false true cx (cy - innerRadius),
      PathCmd.close]

/-- The ring border path: one quarter circle arc for the top left
quadrant. -/
def arcPath (cx cy r : ℚ) : List PathCmd :=
  [PathCmd.move cx (cy - r),
    PathCmd.arc r r 0 false false (cx - r) cy]

/-- Angle of a placed tool in radians. -/
noncomputable def Placed.angle (p : Placed) : ℝ := (p.angleFrac : ℝ) * Real.pi

/-- Horizontal coordinate of a placed tool: x = cx - radius * cos(angle),
undefined (none) when the radius is NaN. -/
noncomputable def Placed.posX (p : Placed) (cx : ℝ) : Option ℝ :=
  p.radius.map (fun r => cx - (r : ℝ) * Real.cos p.angle)

/-- Vertical coordinate of a placed tool: y = cy - radius * sin(angle),
undefined (none) when the radius is NaN. -/
noncomputable def Placed.posY (p : Placed) (cy : ℝ) : Option ℝ :=
  p.radius.map (fun r => cy - (r : ℝ) * Real.sin p.angle)

/-- Convenience constructor for concrete test tools. -/
def mkTool (i a : String) : Tool :=
  { id := i, title := i, description := "", url := "", assessment := a }

/-- The ring table for an available radius of 100, matching the scenario
of the specification: adopt 25, trial 45, evaluate 70, aware 95. -/
def rr100 : RingRadii := componentRingRadii 100

/-- Concrete adopt tool with id "a" (hash 97). -/
def toolA : Tool := mkTool "a" "adopt"

/-- The same id and assessment as toolA but different display fields. -/
def toolA2 : Tool :=
  { id := "a", title := "other", description := "d", url := "u", assessment := "adopt" }

/-- Concrete trial tool with id "t" (hash 116). -/
def toolT : Tool := mkTool "t" "trial"

/-- Concrete adopt tool with id "d" (hash 100). -/
def toolD : Tool := mkTool "d" "adopt"

/-- Concrete aware tool with id "aa" (hash 3104, radius fraction 0.04). -/
def toolAw : Tool := mkTool "aa" "aware"

/-- The tool with an unrecognized assessment category. -/
def toolX : Tool := mkTool "x" "bogus"

/-- The placement the main component computes for toolA alone in the
rr100 table. -/
def pA : Placed := { tool := toolA, radius := some (86/5), angleFrac := 1087/4000 }


/-- The data of a tool that the position assignment reads. -/
def toolKey (t : Tool) : String × String := (t.id, t.assessment)

/-- The polar placement data of a placed tool. -/
def placedPos (p : Placed) : Option ℚ × ℚ := (p.radius, p.angleFrac)

/-- The projection of a group that determines the projected output. -/
def groupKey (g : String × List Tool) : String × List (String × String) :=
  (g.1, g.2.map toolKey)

/-- Relation between the outputs of the two variants at the same index:
same tool, same angle; identical placement off the aware ring, distinct
radii on it when the aware band is nondegenerate. -/
def variantRel (rr : RingRadii) (pA pB : Placed) : Prop :=
  pA.tool = pB.tool ∧ pA.angleFrac = pB.angleFrac
    ∧ (pA.tool.assessment ≠ "aware" → pA = pB)
    ∧ (pA.tool.assessment = "aware" → rr.evaluate < rr.aware → pA.radius ≠ pB.radius)

/-- Radius band of the main variant, as the amended containment claim
states it per category: the middle 30 to 70 percent of the span for the
three bounded rings, and the middle 24 to 56 percent of the
evaluate-to-aware span (hence still inside the ring) for aware. -/
def bandA (rr : RingRadii) (a : String) (r : ℚ) : Prop :=
  (a = "adopt" → rr.adopt * (3/10) ≤ r ∧ r ≤ rr.adopt * (7/10))
  ∧ (a = "trial" →
      rr.adopt + (rr.trial - rr.adopt) * (3/10) ≤ r
        ∧ r ≤ rr.adopt + (rr.trial - rr.adopt) * (7/10))
  ∧ (a = "evaluate" →
      rr.trial + (rr.evaluate - rr.trial) * (3/10) ≤ r
        ∧ r ≤ rr.trial + (rr.evaluate - rr.trial) * (7/10))
  ∧ (a = "aware" →
      rr.evaluate + (rr.aware - rr.evaluate) * (6/25) ≤ r
        ∧ r ≤ rr.evaluate + (rr.aware - rr.evaluate) * (14/25)
        ∧ rr.evaluate ≤ r ∧ r ≤ rr.aware)

/-- Radius band of the part_000 variant: the middle 30 to 70 percent of
the span for all four rings. -/
def bandB (rr : RingRadii) (a : String) (r : ℚ) : Prop :=
  (a = "adopt" → rr.adopt * (3/10) ≤ r ∧ r ≤ rr.adopt * (7/10))
  ∧ (a = "trial" →
      rr.adopt + (rr.trial - rr.adopt) * (3/10) ≤ r
        ∧ r ≤ rr.adopt + (rr.trial - rr.adopt) * (7/10))
  ∧ (a = "evaluate" →
      rr.trial + (rr.evaluate - rr.trial) * (3/10) ≤ r
        ∧ r ≤ rr.trial + (rr.evaluate - rr.trial) * (7/10))
  ∧ (a = "aware" →
      rr.evaluate + (rr.aware - rr.evaluate) * (3/10) ≤ r
        ∧ r ≤ rr.evaluate + (rr.aware - rr.evaluate) * (7/10))

/-! Basic structural lemmas about the placement of one ring. -/

lemma positionRing_length (mm : Option ℚ × Option ℚ) (ts : List Tool) :
    (positionRing mm ts).length = ts.length := by
  simp [positionRing, List.enum_eq_enumFrom]

lemma positionRing_getElem (mm : Option ℚ × Option ℚ) (ts : List Tool) (i : ℕ)
    (h : i < ts.length) (h2 : i < (positionRing mm ts).length) :
    (positionRing mm ts)[i] = placeTool mm ts.length i ts[i] := by
  simp [positionRing, List.enum_eq_enumFrom, List.getElem_enumFrom]

lemma positionRing_map_tool (mm : Option ℚ × Option ℚ) (ts : List Tool) :
    (positionRing mm ts).map Placed.tool = ts := by
  unfold positionRing
  rw [List.map_map]
  have h : (Placed.tool ∘ fun p : ℕ × Tool => placeTool mm ts.length p.1 p.2) = Prod.snd := rfl
  rw [h, List.enum_eq_enumFrom, List.enumFrom_map_snd]

lemma mem_positionRing {mm : Option ℚ × Option ℚ} {ts : List Tool} {p : Placed} :
    p ∈ positionRing mm ts ↔
      ∃ i, ∃ h : i < ts.length, p = placeTool mm ts.length i ts[i] := by
  constructor
  · intro hp
    obtain ⟨i, hi, he⟩ := List.mem_iff_getElem.mp hp
    have hi' : i < ts.length := by simpa [positionRing_length] using hi
    exact ⟨i, hi', by rw [← he, positionRing_getElem mm ts i hi' hi]⟩
  · rintro ⟨i, hi, rfl⟩
    have hi' : i < (positionRing mm ts).length := by simpa [positionRing_length] using hi
    exact List.mem_iff_getElem.mpr ⟨i, hi', positionRing_getElem mm ts i hi hi'⟩

lemma tool_mem_of_mem_positionRing {mm : Option ℚ × Option ℚ} {ts : List Tool} {p : Placed}
    (hp : p ∈ positionRing mm ts) : p.tool ∈ ts := by
  obtain ⟨i, hi, rfl⟩ := mem_positionRing.mp hp
  exact List.getElem_mem hi

/-! Lemmas about the grouping step. -/

lemma any_key (acc : List (String × List Tool)) (a : String) :
    (acc.any fun g => g.1 = a) ↔ a ∈ acc.map Prod.fst := by
  rw [List.any_eq_true]
  constructor
  · rintro ⟨g, hg, he⟩
    exact List.mem_map.mpr ⟨g, hg, by simpa using he⟩
  · intro h
    obtain ⟨g, hg, he⟩ := List.mem_map.mp h
    exact ⟨g, hg, by simp [he]⟩

lemma insertGroup_keys (acc : List (String × List Tool)) (t : Tool) :
    (insertGroup acc t).map Prod.fst = insertKey (acc.map Prod.fst) t.assessment := by
  unfold insertGroup insertKey
  by_cases h : t.assessment ∈ acc.map Prod.fst
  · rw [if_pos ((any_key acc t.assessment).mpr h), if_pos h, List.map_map]
    congr 1
    funext g
    by_cases hg : g.1 = t.assessment <;> simp [hg]
  · rw [if_neg (fun hc => h ((any_key acc t.assessment).mp hc)), if_neg h]
    simp

lemma findGroup_insertGroup (acc : List (String × List Tool)) (t : Tool) (a : String) :
    findGroup (insertGroup acc t) a
      = if t.assessment = a then findGroup acc a ++ [t] else findGroup acc a := by
  unfold insertGroup findGroup
  by_cases hmem : t.assessment ∈ acc.map Prod.fst
  · rw [if_pos ((any_key acc t.assessment).mpr hmem), List.find?_map]
    have hcomp : ((fun g : String × List Tool => decide (g.1 = a)) ∘
        fun g => if g.1 = t.assessment then (g.1, g.2 ++ [t]) else g)
        = fun g : String × List Tool => decide (g.1 = a) := by
      funext g
      by_cases hg : g.1 = t.assessment <;> simp [hg]
    rw [hcomp]
    by_cases ha : t.assessment = a
    · subst ha
      have hsome : (acc.find? fun g => decide (g.1 = t.assessment)).isSome := by
        rw [List.find?_isSome]
        obtain ⟨g, hg, he⟩ := List.mem_map.mp hmem
        exact ⟨g, hg, by simp [he]⟩
      obtain ⟨g, hg⟩ := Option.isSome_iff_exists.mp hsome
      have hga : g.1 = t.assessment := by simpa using List.find?_some hg
      rw [hg, if_pos rfl, Option.map_some']
      simp [hga]
    · rw [if_neg ha]
      cases hfind : acc.find? fun g => decide (g.1 = a) with
      | none => simp
      | some g =>
        have hga : g.1 = a := by simpa using List.find?_some hfind
        have : g.1 ≠ t.assessment := by rw [hga]; exact fun he => ha he.symm
        simp [this]
  · rw [if_neg (fun hc => hmem ((any_key acc t.assessment).mp hc)), List.find?_append]
    by_cases ha : t.assessment = a
    · subst ha
      have hnone : acc.find? (fun g => decide (g.1 = t.assessment)) = none := by
        rw [List.find?_eq_none]
        intro g hg hp
        exact hmem (List.mem_map.mpr ⟨g, hg, by simpa using hp⟩)
      rw [hnone, if_pos rfl]
      simp
    · rw [if_neg ha]
      have : List.find? (fun g => decide (g.1 = a)) [(t.assessment, [t])] = none := by
        simp [ha]
      rw [this]
      simp

lemma findGroup_foldl (ts : List Tool) (acc : List (String × List Tool)) (a : String) :
    findGroup (ts.foldl insertGroup acc) a
      = findGroup acc a ++ ts.filter (fun t => t.assessment = a) := by
  induction ts generalizing acc with
  | nil => simp
  | cons t ts ih =>
    rw [List.foldl_cons, ih, findGroup_insertGroup]
    by_cases h : t.assessment = a
    · simp [List.filter_cons, h, List.append_assoc]
    · simp [List.filter_cons, h]

lemma findGroup_groupTools (ts : List Tool) (a : String) :
    findGroup (groupTools ts) a = ts.filter (fun t => t.assessment = a) := by
  have h := findGroup_foldl ts [] a
  simpa [groupTools, findGroup] using h

lemma foldl_insertGroup_keys (ts : List Tool) (acc : List (String × List Tool)) :
    (ts.foldl insertGroup acc).map Prod.fst
      = (ts.map Tool.assessment).foldl insertKey (acc.map Prod.fst) := by
  induction ts generalizing acc with
  | nil => rfl
  | cons t ts ih =>
    rw [List.foldl_cons, ih, insertGroup_keys, List.map_cons, List.foldl_cons]

lemma groupTools_keys (ts : List Tool) :
    (groupTools ts).map Prod.fst = firstKeys (ts.map Tool.assessment) :=
  foldl_insertGroup_keys ts []

lemma insertKey_nodup {ks : List String} (h : ks.Nodup) (s : String) :
    (insertKey ks s).Nodup := by
  unfold insertKey
  by_cases hs : s ∈ ks
  · simpa [hs]
  · rw [if_neg hs]
    exact h.append (List.nodup_singleton s) (by simp [hs])

lemma foldl_insertKey_nodup (l : List String) (ks : List String) (h : ks.Nodup) :
    (l.foldl insertKey ks).Nodup := by
  induction l generalizing ks with
  | nil => exact h
  | cons s l ih => exact ih _ (insertKey_nodup h s)

lemma firstKeys_nodup (l : List String) : (firstKeys l).Nodup :=
  foldl_insertKey_nodup l [] (by simp)

lemma groupTools_keys_nodup (ts : List Tool) : ((groupTools ts).map Prod.fst).Nodup := by
  rw [groupTools_keys]
  exact firstKeys_nodup _

lemma find?_mem_of_nodup {l : List (String × List Tool)}
    (hnd : (l.map Prod.fst).Nodup) {g : String × List Tool} (hg : g ∈ l) :
    l.find? (fun x => x.1 = g.1) = some g := by
  induction l with
  | nil => cases hg
  | cons h l ih =>
    rw [List.map_cons, List.nodup_cons] at hnd
    rcases List.mem_cons.mp hg with rfl | hg'
    · exact List.find?_cons_of_pos l (by simp)
    · have hne : ¬ (h.1 = g.1) := by
        intro he
        exact hnd.1 (he ▸ List.mem_map.mpr ⟨g, hg', rfl⟩)
      rw [List.find?_cons_of_neg l (by simpa using hne)]
      exact ih hnd.2 hg'

lemma snd_eq_findGroup_of_mem {ts : List Tool} {g : String × List Tool}
    (hg : g ∈ groupTools ts) : g.2 = findGroup (groupTools ts) g.1 := by
  unfold findGroup
  rw [find?_mem_of_nodup (groupTools_keys_nodup ts) hg]

lemma group_pure {ts : List Tool} {g : String × List Tool} (hg : g ∈ groupTools ts) :
    ∀ t ∈ g.2, t.assessment = g.1 := by
  intro t ht
  rw [snd_eq_findGroup_of_mem hg, findGroup_groupTools] at ht
  simpa using (List.mem_filter.mp ht).2

lemma mem_positionToolsWith {mm : String → Option ℚ × Option ℚ} {ts : List Tool} {p : Placed} :
    p ∈ positionToolsWith mm ts ↔
      ∃ g ∈ groupTools ts, p ∈ positionRing (mm g.1) g.2 := by
  unfold positionToolsWith
  exact List.mem_flatMap

/-! Permutation of the tools through grouping and placement. -/

lemma flatMap_update_eq_of_no_key {l : List (String × List Tool)} {a : String} {t : Tool}
    (h : ∀ g ∈ l, g.1 ≠ a) :
    l.flatMap (fun g => if g.1 = a then g.2 ++ [t] else g.2) = l.flatMap Prod.snd := by
  induction l with
  | nil => rfl
  | cons g l ih =>
    rw [List.flatMap_cons, List.flatMap_cons, if_neg (h g (by simp)),
      ih (fun g' hg' => h g' (by simp [hg']))]

lemma flatMap_update_perm {l : List (String × List Tool)} {a : String} {t : Tool}
    (hnd : (l.map Prod.fst).Nodup) (hmem : a ∈ l.map Prod.fst) :
    List.Perm (l.flatMap (fun g => if g.1 = a then g.2 ++ [t] else g.2))
      ((l.flatMap Prod.snd) ++ [t]) := by
  induction l with
  | nil => simp at hmem
  | cons g l ih =>
    rw [List.map_cons, List.nodup_cons] at hnd
    rw [List.flatMap_cons, List.flatMap_cons]
    by_cases hg : g.1 = a
    · have hnol : ∀ g' ∈ l, g'.1 ≠ a := by
        intro g' hg' he
        exact hnd.1 (hg ▸ he ▸ List.mem_map.mpr ⟨g', hg', rfl⟩)
      rw [if_pos hg, flatMap_update_eq_of_no_key hnol]
      have h2 := List.Perm.append_left g.2
        (@List.perm_append_comm _ [t] (l.flatMap Prod.snd))
      rw [← List.append_assoc, ← List.append_assoc] at h2
      exact h2
    · rw [if_neg hg]
      have hmem' : a ∈ l.map Prod.fst := by
        rcases List.mem_cons.mp hmem with he | h'
        · exact absurd he.symm hg
        · exact h'
      have h4 := List.Perm.append_left g.2 (ih hnd.2 hmem')
      rw [← List.append_assoc] at h4
      exact h4

lemma insertGroup_flat_perm (acc : List (String × List Tool)) (t : Tool)
    (hnd : (acc.map Prod.fst).Nodup) :
    List.Perm ((insertGroup acc t).flatMap Prod.snd) ((acc.flatMap Prod.snd) ++ [t]) := by
  unfold insertGroup
  by_cases hmem : t.assessment ∈ acc.map Prod.fst
  · rw [if_pos ((any_key acc t.assessment).mpr hmem), List.flatMap_map]
    have hcomp : (fun g : String × List Tool =>
        (if g.1 = t.assessment then (g.1, g.2 ++ [t]) else g).2)
        = fun g : String × List Tool => if g.1 = t.assessment then g.2 ++ [t] else g.2 := by
      funext g
      by_cases hg : g.1 = t.assessment <;> simp [hg]
    rw [hcomp]
    exact flatMap_update_perm hnd hmem
  · rw [if_neg (fun hc => hmem ((any_key acc t.assessment).mp hc)), List.flatMap_append]
    simp

lemma foldl_insertGroup_flat_perm (ts : List Tool) (acc : List (String × List Tool))
    (hnd : (acc.map Prod.fst).Nodup) :
    List.Perm ((ts.foldl insertGroup acc).flatMap Prod.snd) ((acc.flatMap Prod.snd) ++ ts) := by
  induction ts generalizing acc with
  | nil => simp
  | cons t ts ih =>
    rw [List.foldl_cons]
    have hnd' : ((insertGroup acc t).map Prod.fst).Nodup := by
      rw [insertGroup_keys]
      exact insertKey_nodup hnd _
    have h3 := (ih (insertGroup acc t) hnd').trans
      ((insertGroup_flat_perm acc t hnd).append_right ts)
    rw [List.append_assoc] at h3
    simpa using h3

lemma groupTools_flat_perm (ts : List Tool) :
    List.Perm ((groupTools ts).flatMap Prod.snd) ts := by
  have h := foldl_insertGroup_flat_perm ts [] (by simp)
  simpa [groupTools] using h

lemma positionToolsWith_tools_perm (mm : String → Option ℚ × Option ℚ) (ts : List Tool) :
    List.Perm ((positionToolsWith mm ts).map Placed.tool) ts := by
  unfold positionToolsWith
  rw [List.map_flatMap]
  have hfun : (fun g : String × List Tool => ((positionRing (mm g.1) g.2).map Placed.tool))
      = Prod.snd := by
    funext g
    exact positionRing_map_tool _ _
  rw [hfun]
  exact groupTools_flat_perm ts

/-! Arithmetic bounds on the hash-derived jitter. -/

lemma radiusRandom_nonneg (s : String) : 0 ≤ radiusRandom s := by
  unfold radiusRandom
  positivity

lemma radiusRandom_le (s : String) : radiusRandom s ≤ 99/100 := by
  unfold radiusRandom
  have h : ((hashCode s % 100 : ℕ) : ℚ) ≤ 99 := by
    exact_mod_cast Nat.le_of_lt_succ (Nat.mod_lt _ (by norm_num))
  linarith

lemma angleRandom_lower (s : String) : -(1/2) ≤ angleRandom s := by
  unfold angleRandom
  have h : (0:ℚ) ≤ ((hashCode s * 7 % 100 : ℕ) : ℚ) := by positivity
  linarith

lemma angleRandom_upper (s : String) : angleRandom s ≤ 49/100 := by
  unfold angleRandom
  have h : ((hashCode s * 7 % 100 : ℕ) : ℚ) ≤ 99 := by
    exact_mod_cast Nat.le_of_lt_succ (Nat.mod_lt _ (by norm_num))
  linarith

lemma angleStepFrac_pos (n : ℕ) : 0 < angleStepFrac n := by
  unfold angleStepFrac
  positivity

lemma angleStepFrac_mul (n : ℕ) : angleStepFrac n * ((n : ℚ) + 1) = 1/2 := by
  unfold angleStepFrac
  have h : ((n : ℚ) + 1) ≠ 0 := by positivity
  field_simp
  ring

lemma placeTool_angleFrac (mm : Option ℚ × Option ℚ) (n i : ℕ) (t : Tool) :
    (placeTool mm n i t).angleFrac
      = angleStepFrac n * ((i : ℚ) + 1) + angleRandom t.id * angleStepFrac n * (3/10) := by
  simp [placeTool]

lemma angleFrac_pos {n i : ℕ} (a : ℚ) (ha : -(1/2) ≤ a) :
    0 < angleStepFrac n * ((i : ℚ) + 1) + a * angleStepFrac n * (3/10) := by
  have hs := angleStepFrac_pos n
  have h1 : angleStepFrac n * ((i : ℚ) + 1) + a * angleStepFrac n * (3/10)
      = angleStepFrac n * (((i : ℚ) + 1) + a * (3/10)) := by ring
  rw [h1]
  apply mul_pos hs
  have hi : (0:ℚ) ≤ (i : ℚ) := by positivity
  nlinarith

lemma angleFrac_lt_half {n i : ℕ} (hi : i < n) (a : ℚ) (ha : a ≤ 49/100) :
    angleStepFrac n * ((i : ℚ) + 1) + a * angleStepFrac n * (3/10) < 1/2 := by
  have hs := angleStepFrac_pos n
  have hin : ((i : ℚ) + 1) ≤ (n : ℚ) := by exact_mod_cast hi
  have key : angleStepFrac n * ((i : ℚ) + 1) + a * angleStepFrac n * (3/10)
      < angleStepFrac n * ((n : ℚ) + 1) := by nlinarith
  rw [angleStepFrac_mul] at key
  exact key

lemma angleFrac_lt {n i j : ℕ} (hij : i < j) (ai aj : ℚ)
    (hai : ai ≤ 49/100) (haj : -(1/2) ≤ aj) :
    angleStepFrac n * ((i : ℚ) + 1) + ai * angleStepFrac n * (3/10)
      < angleStepFrac n * ((j : ℚ) + 1) + aj * angleStepFrac n * (3/10) := by
  have hs := angleStepFrac_pos n
  have hij' : (i : ℚ) + 1 ≤ (j : ℚ) := by exact_mod_cast hij
  nlinarith

lemma jitterRadius_lower (mn mx f : ℚ) (hmm : mn ≤ mx) (hf0 : 0 ≤ f) :
    mn + (mx - mn) * (3/10) ≤ mn + (mx - mn) * (3/10 + f * (2/5)) := by
  nlinarith

lemma jitterRadius_upper (mn mx f : ℚ) (hmm : mn ≤ mx) (hf1 : f ≤ 99/100) :
    mn + (mx - mn) * (3/10 + f * (2/5)) ≤ mn + (mx - mn) * (7/10) := by
  nlinarith

/-! Evaluation of the ring bound pairs at the four categories, and at
unrecognized categories. -/

lemma ringMinMaxA_adopt (rr : RingRadii) : ringMinMaxA rr "adopt" = (some 0, some rr.adopt) := by
  simp [ringMinMaxA, RingRadii.lookup]

lemma ringMinMaxA_trial (rr : RingRadii) :
    ringMinMaxA rr "trial" = (some rr.adopt, some rr.trial) := by
  simp [ringMinMaxA, RingRadii.lookup, jsGet, jsIndexOf, RING_ORDER, List.findIdx?]

lemma ringMinMaxA_evaluate (rr : RingRadii) :
    ringMinMaxA rr "evaluate" = (some rr.trial, some rr.evaluate) := by
  simp [ringMinMaxA, RingRadii.lookup, jsGet, jsIndexOf, RING_ORDER, List.findIdx?]

lemma ringMinMaxA_aware (rr : RingRadii) :
    ringMinMaxA rr "aware"
      = (some rr.evaluate, some (rr.evaluate + (rr.aware - rr.evaluate) * (4/5))) := by
  simp [ringMinMaxA]

lemma ringMinMaxB_adopt (rr : RingRadii) : ringMinMaxB rr "adopt" = (some 0, some rr.adopt) := by
  simp [ringMinMaxB, RingRadii.lookup]

lemma ringMinMaxB_trial (rr : RingRadii) :
    ringMinMaxB rr "trial" = (some rr.adopt, some rr.trial) := by
  simp [ringMinMaxB, RingRadii.lookup, jsGet, jsIndexOf, RING_ORDER, List.findIdx?]

lemma ringMinMaxB_evaluate (rr : RingRadii) :
    ringMinMaxB rr "evaluate" = (some rr.trial, some rr.evaluate) := by
  simp [ringMinMaxB, RingRadii.lookup, jsGet, jsIndexOf, RING_ORDER, List.findIdx?]

lemma ringMinMaxB_aware (rr : RingRadii) :
    ringMinMaxB rr "aware" = (some rr.evaluate, some rr.aware) := by
  simp [ringMinMaxB, RingRadii.lookup, jsGet, jsIndexOf, RING_ORDER, List.findIdx?]

lemma lookup_of_unrecognized (rr : RingRadii) {a : String} (h : recognizedCat a = false) :
    rr.lookup a = none := by
  simp only [recognizedCat, Bool.or_eq_false_iff, beq_eq_false_iff_ne, ne_eq] at h
  obtain ⟨⟨⟨h1, h2⟩, h3⟩, h4⟩ := h
  simp [RingRadii.lookup, h1, h2, h3, h4]

lemma jsIndexOf_of_unrecognized {a : String} (h : recognizedCat a = false) :
    jsIndexOf RING_ORDER a = -1 := by
  simp only [recognizedCat, Bool.or_eq_false_iff, beq_eq_false_iff_ne, ne_eq] at h
  obtain ⟨⟨⟨h1, h2⟩, h3⟩, h4⟩ := h
  have g1 : ¬ ("adopt" = a) := fun he => h1 he.symm
  have g2 : ¬ ("trial" = a) := fun he => h2 he.symm
  have g3 : ¬ ("evaluate" = a) := fun he => h3 he.symm
  have g4 : ¬ ("aware" = a) := fun he => h4 he.symm
  simp [jsIndexOf, RING_ORDER, List.findIdx?, beq_iff_eq, g1, g2, g3, g4]

lemma ringMinMaxA_of_unrecognized (rr : RingRadii) {a : String}
    (h : recognizedCat a = false) : ringMinMaxA rr a = (none, none) := by
  have h' := h
  simp only [recognizedCat, Bool.or_eq_false_iff, beq_eq_false_iff_ne, ne_eq] at h'
  obtain ⟨⟨⟨h1, h2⟩, h3⟩, h4⟩ := h'
  unfold ringMinMaxA
  rw [if_neg h4, if_neg h1, jsIndexOf_of_unrecognized h, lookup_of_unrecognized rr h]
  simp [jsGet]

lemma ringMinMaxB_of_unrecognized (rr : RingRadii) {a : String}
    (h : recognizedCat a = false) : ringMinMaxB rr a = (none, none) := by
  have h' := h
  simp only [recognizedCat, Bool.or_eq_false_iff, beq_eq_false_iff_ne, ne_eq] at h'
  obtain ⟨⟨⟨h1, h2⟩, h3⟩, h4⟩ := h'
  unfold ringMinMaxB
  rw [if_neg h1, jsIndexOf_of_unrecognized h, lookup_of_unrecognized rr h]
  simp [jsGet]

/-! Shape of every element of the output: it is the placement of the
tool at some index of the filtered input sequence of its own category. -/

lemma placed_shape {mm : String → Option ℚ × Option ℚ} {ts : List Tool} {p : Placed}
    (hp : p ∈ positionToolsWith mm ts) :
    ∃ i t, (ts.filter (fun t' => t'.assessment = p.tool.assessment))[i]? = some t
      ∧ p = placeTool (mm p.tool.assessment)
          (ts.filter (fun t' => t'.assessment = p.tool.assessment)).length i t := by
  obtain ⟨g, hg, hpr⟩ := mem_positionToolsWith.mp hp
  obtain ⟨i, hi, he⟩ := mem_positionRing.mp hpr
  have hfilter : g.2 = ts.filter (fun t => t.assessment = g.1) := by
    rw [snd_eq_findGroup_of_mem hg, findGroup_groupTools]
  have hassess : p.tool.assessment = g.1 := by
    rw [he]
    exact group_pure hg _ (List.getElem_mem hi)
  have hkey : ts.filter (fun t' => t'.assessment = p.tool.assessment) = g.2 := by
    rw [hassess, ← hfilter]
  refine ⟨i, g.2[i], ?_, ?_⟩
  · rw [hkey]
    exact List.getElem?_eq_getElem hi
  · rw [hkey, hassess]
    exact he

/-- Evaluated min/max radius bounds for the main variant, for every placed
tool with a defined radius. -/
lemma radius_casesA {rr : RingRadii} {ts : List Tool} {p : Placed}
    (hp : p ∈ positionTools rr ts) {r : ℚ} (hr : p.radius = some r) :
    ∃ mn mx : ℚ, r = mn + (mx - mn) * (3/10 + radiusRandom p.tool.id * (2/5))
      ∧ ((p.tool.assessment = "adopt" ∧ mn = 0 ∧ mx = rr.adopt)
        ∨ (p.tool.assessment = "trial" ∧ mn = rr.adopt ∧ mx = rr.trial)
        ∨ (p.tool.assessment = "evaluate" ∧ mn = rr.trial ∧ mx = rr.evaluate)
        ∨ (p.tool.assessment = "aware" ∧ mn = rr.evaluate
            ∧ mx = rr.evaluate + (rr.aware - rr.evaluate) * (4/5))) := by
  obtain ⟨i, t, hget, he⟩ := placed_shape hp
  have htool : p.tool = t := by rw [he]; rfl
  by_cases h1 : p.tool.assessment = "adopt"
  · rw [he, h1] at hr
    rw [placeTool, ringMinMaxA_adopt, jitterRadius] at hr
    simp only [Option.some.injEq] at hr
    exact ⟨0, rr.adopt, by rw [← hr, htool], Or.inl ⟨h1, rfl, rfl⟩⟩
  by_cases h2 : p.tool.assessment = "trial"
  · rw [he, h2] at hr
    rw [placeTool, ringMinMaxA_trial, jitterRadius] at hr
    simp only [Option.some.injEq] at hr
    exact ⟨rr.adopt, rr.trial, by rw [← hr, htool], Or.inr (Or.inl ⟨h2, rfl, rfl⟩)⟩
  by_cases h3 : p.tool.assessment = "evaluate"
  · rw [he, h3] at hr
    rw [placeTool, ringMinMaxA_evaluate, jitterRadius] at hr
    simp only [Option.some.injEq] at hr
    exact ⟨rr.trial, rr.evaluate, by rw [← hr, htool], Or.inr (Or.inr (Or.inl ⟨h3, rfl, rfl⟩))⟩
  by_cases h4 : p.tool.assessment = "aware"
  · rw [he, h4] at hr
    rw [placeTool, ringMinMaxA_aware, jitterRadius] at hr
    simp only [Option.some.injEq] at hr
    exact ⟨rr.evaluate, rr.evaluate + (rr.aware - rr.evaluate) * (4/5),
      by rw [← hr, htool], Or.inr (Or.inr (Or.inr ⟨h4, rfl, rfl⟩))⟩
  · have hfalse : recognizedCat p.tool.assessment = false := by
      simp [recognizedCat, h1, h2, h3, h4]
    rw [he] at hr
    simp [placeTool, ringMinMaxA_of_unrecognized rr hfalse, jitterRadius] at hr

/-- Evaluated min/max radius bounds for the part_000 variant. -/
lemma radius_casesB {rr : RingRadii} {ts : List Tool} {p : Placed}
    (hp : p ∈ positionToolsB rr ts) {r : ℚ} (hr : p.radius = some r) :
    ∃ mn mx : ℚ, r = mn + (mx - mn) * (3/10 + radiusRandom p.tool.id * (2/5))
      ∧ ((p.tool.assessment = "adopt" ∧ mn = 0 ∧ mx = rr.adopt)
        ∨ (p.tool.assessment = "trial" ∧ mn = rr.adopt ∧ mx = rr.trial)
        ∨ (p.tool.assessment = "evaluate" ∧ mn = rr.trial ∧ mx = rr.evaluate)
        ∨ (p.tool.assessment = "aware" ∧ mn = rr.evaluate ∧ mx = rr.aware)) := by
  obtain ⟨i, t, hget, he⟩ := placed_shape hp
  have htool : p.tool = t := by rw [he]; rfl
  by_cases h1 : p.tool.assessment = "adopt"
  · rw [he, h1] at hr
    rw [placeTool, ringMinMaxB_adopt, jitterRadius] at hr
    simp only [Option.some.injEq] at hr
    exact ⟨0, rr.adopt, by rw [← hr, htool], Or.inl ⟨h1, rfl, rfl⟩⟩
  by_cases h2 : p.tool.assessment = "trial"
  · rw [he, h2] at hr
    rw [placeTool, ringMinMaxB_trial, jitterRadius] at hr
    simp only [Option.some.injEq] at hr
    exact ⟨rr.adopt, rr.trial, by rw [← hr, htool], Or.inr (Or.inl ⟨h2, rfl, rfl⟩)⟩
  by_cases h3 : p.tool.assessment = "evaluate"
  · rw [he, h3] at hr
    rw [placeTool, ringMinMaxB_evaluate, jitterRadius] at hr
    simp only [Option.some.injEq] at hr
    exact ⟨rr.trial, rr.evaluate, by rw [← hr, htool], Or.inr (Or.inr (Or.inl ⟨h3, rfl, rfl⟩))⟩
  by_cases h4 : p.tool.assessment = "aware"
  · rw [he, h4] at hr
    rw [placeTool, ringMinMaxB_aware, jitterRadius] at hr
    simp only [Option.some.injEq] at hr
    exact ⟨rr.evaluate, rr.aware, by rw [← hr, htool],
      Or.inr (Or.inr (Or.inr ⟨h4, rfl, rfl⟩))⟩
  · have hfalse : recognizedCat p.tool.assessment = false := by
      simp [recognizedCat, h1, h2, h3, h4]
    rw [he] at hr
    simp [placeTool, ringMinMaxB_of_unrecognized rr hfalse, jitterRadius] at hr

/-! Definedness of the radius, and bounds on the final angle. -/

lemma radius_isSome_iffA {rr : RingRadii} {ts : List Tool} {p : Placed}
    (hp : p ∈ positionTools rr ts) :
    p.radius.isSome = recognizedCat p.tool.assessment := by
  obtain ⟨i, t, hget, he⟩ := placed_shape hp
  have htool : p.tool = t := by rw [he]; rfl
  have haeq : p.tool.assessment = t.assessment := by rw [htool]
  rw [he]
  by_cases h1 : t.assessment = "adopt"
  · simp [placeTool, jitterRadius, ringMinMaxA_adopt, recognizedCat, haeq, h1]
  by_cases h2 : t.assessment = "trial"
  · simp [placeTool, jitterRadius, ringMinMaxA_trial, recognizedCat, haeq, h2]
  by_cases h3 : t.assessment = "evaluate"
  · simp [placeTool, jitterRadius, ringMinMaxA_evaluate, recognizedCat, haeq, h3]
  by_cases h4 : t.assessment = "aware"
  · simp [placeTool, jitterRadius, ringMinMaxA_aware, recognizedCat, haeq, h4]
  · have hfalse : recognizedCat t.assessment = false := by
      simp [recognizedCat, h1, h2, h3, h4]
    simp [placeTool, jitterRadius, ringMinMaxA_of_unrecognized rr hfalse, haeq, hfalse,
      recognizedCat, h1, h2, h3, h4]

lemma placed_angleFrac_bounds {mm : String → Option ℚ × Option ℚ} {ts : List Tool} {p : Placed}
    (hp : p ∈ positionToolsWith mm ts) :
    0 < p.angleFrac ∧ p.angleFrac < 1/2 := by
  obtain ⟨i, t, hget, he⟩ := placed_shape hp
  obtain ⟨hi, -⟩ := List.getElem?_eq_some.mp hget
  have hfrac : p.angleFrac
      = angleStepFrac (ts.filter (fun t' => t'.assessment = p.tool.assessment)).length
          * ((i : ℚ) + 1)
        + angleRandom t.id
          * angleStepFrac (ts.filter (fun t' => t'.assessment = p.tool.assessment)).length
          * (3/10) := by
    conv_lhs => rw [he]
    exact placeTool_angleFrac _ _ _ _
  rw [hfrac]
  exact ⟨angleFrac_pos _ (angleRandom_lower t.id),
    angleFrac_lt_half hi _ (angleRandom_upper t.id)⟩

/-! Filtering the output by category recovers the filtered input. -/

lemma positionRing_filter_ne {mm0 : Option ℚ × Option ℚ} {tsg : List Tool} {b a : String}
    (hb : b ≠ a) (hpure : ∀ t ∈ tsg, t.assessment = b) :
    (positionRing mm0 tsg).filter (fun p => p.tool.assessment = a) = [] := by
  rw [List.filter_eq_nil_iff]
  intro p hp
  simp [hpure p.tool (tool_mem_of_mem_positionRing hp), hb]

lemma positionRing_filter_eq {mm0 : Option ℚ × Option ℚ} {tsg : List Tool} {a : String}
    (hpure : ∀ t ∈ tsg, t.assessment = a) :
    (positionRing mm0 tsg).filter (fun p => p.tool.assessment = a) = positionRing mm0 tsg := by
  rw [List.filter_eq_self]
  intro p hp
  simp [hpure p.tool (tool_mem_of_mem_positionRing hp)]

lemma positionToolsWith_filter (mm : String → Option ℚ × Option ℚ) (ts : List Tool)
    (a : String) :
    ((positionToolsWith mm ts).filter (fun p => p.tool.assessment = a)).map Placed.tool
      = ts.filter (fun t => t.assessment = a) := by
  unfold positionToolsWith
  rw [List.filter_flatMap, List.map_flatMap]
  have key : ∀ G : List (String × List Tool), (G.map Prod.fst).Nodup →
      (∀ g ∈ G, ∀ t ∈ g.2, t.assessment = g.1) →
      (G.flatMap (fun g =>
        (((positionRing (mm g.1) g.2).filter (fun p => p.tool.assessment = a))).map
          Placed.tool)) = findGroup G a := by
    intro G
    induction G with
    | nil => intro _ _; simp [findGroup]
    | cons g G ih =>
      intro hnd hpure
      rw [List.map_cons, List.nodup_cons] at hnd
      rw [List.flatMap_cons]
      by_cases hg : g.1 = a
      · subst hg
        have htail : (G.flatMap fun g' =>
            ((positionRing (mm g'.1) g'.2).filter
              (fun p => p.tool.assessment = g.1)).map Placed.tool) = [] := by
          rw [List.flatMap_eq_nil_iff]
          intro g' hg'
          have hne : g'.1 ≠ g.1 := fun he => hnd.1 (he ▸ List.mem_map.mpr ⟨g', hg', rfl⟩)
          rw [positionRing_filter_ne hne (hpure g' (List.mem_cons_of_mem g hg'))]
          rfl
        rw [htail, List.append_nil,
          positionRing_filter_eq (hpure g (List.mem_cons_self g G)),
          positionRing_map_tool]
        unfold findGroup
        rw [List.find?_cons_of_pos _ (by simp)]
      · rw [positionRing_filter_ne hg (hpure g (List.mem_cons_self g G)),
          List.map_nil, List.nil_append,
          ih hnd.2 (fun g' hg' => hpure g' (List.mem_cons_of_mem g hg'))]
        unfold findGroup
        rw [List.find?_cons_of_neg _ (by simp [hg])]
  rw [key (groupTools ts) (groupTools_keys_nodup ts) (fun g hg => group_pure hg),
    findGroup_groupTools]

/-! Determinism machinery: the position data of the output depends only
on the sequence of (id, assessment) pairs of the input. -/

lemma map_congr_of_proj {α β γ : Type} {f : α → γ} {l₁ l₂ : List α}
    (h : l₁.map f = l₂.map f) (g₁ g₂ : α → β) (hg : ∀ x y, f x = f y → g₁ x = g₂ y) :
    l₁.map g₁ = l₂.map g₂ := by
  induction l₁ generalizing l₂ with
  | nil =>
    cases l₂ with
    | nil => rfl
    | cons y l₂ => simp at h
  | cons x l ih =>
    cases l₂ with
    | nil => simp at h
    | cons y l₂ =>
      simp only [List.map_cons, List.cons.injEq] at h ⊢
      exact ⟨hg x y h.1, ih h.2⟩

lemma insertGroup_congr {acc₁ acc₂ : List (String × List Tool)} {t₁ t₂ : Tool}
    (hacc : acc₁.map groupKey = acc₂.map groupKey) (ht : toolKey t₁ = toolKey t₂) :
    (insertGroup acc₁ t₁).map groupKey = (insertGroup acc₂ t₂).map groupKey := by
  have hkeys : acc₁.map Prod.fst = acc₂.map Prod.fst := by
    have h' := congrArg (List.map Prod.fst) hacc
    rw [List.map_map, List.map_map] at h'
    exact h'
  have hass : t₁.assessment = t₂.assessment := congrArg Prod.snd ht
  unfold insertGroup
  by_cases hmem : t₁.assessment ∈ acc₁.map Prod.fst
  · have hmem₂ : t₂.assessment ∈ acc₂.map Prod.fst := by
      rw [← hass, ← hkeys]
      exact hmem
    rw [if_pos ((any_key _ _).mpr hmem), if_pos ((any_key _ _).mpr hmem₂),
      List.map_map, List.map_map]
    refine map_congr_of_proj hacc _ _ ?_
    intro x y hxy
    have hx1 : x.1 = y.1 := by
      have h' := congrArg Prod.fst hxy
      simpa [groupKey] using h'
    have hx2 : x.2.map toolKey = y.2.map toolKey := by
      have h' := congrArg Prod.snd hxy
      simpa [groupKey] using h'
    by_cases hxk : x.1 = t₁.assessment
    · have hyk : y.1 = t₂.assessment := by rw [← hx1, ← hass]; exact hxk
      simp only [Function.comp_apply, hxk, hyk, if_pos rfl, groupKey]
      simp [hx1, hx2, ht, hass]
    · have hyk : ¬ (y.1 = t₂.assessment) := by rw [← hx1, ← hass]; exact hxk
      simp only [Function.comp_apply, if_neg hxk, if_neg hyk]
      simp [groupKey, hx1, hx2]
  · have hmem₂ : t₂.assessment ∉ acc₂.map Prod.fst := by
      rw [← hass, ← hkeys]
      exact hmem
    rw [if_neg (fun hc => hmem ((any_key _ _).mp hc)),
      if_neg (fun hc => hmem₂ ((any_key _ _).mp hc)),
      List.map_append, List.map_append, hacc]
    simp [groupKey, hass, ht]

lemma foldl_insertGroup_congr {l₁ l₂ : List Tool} (h : l₁.map toolKey = l₂.map toolKey) :
    ∀ {acc₁ acc₂ : List (String × List Tool)}, acc₁.map groupKey = acc₂.map groupKey →
      (l₁.foldl insertGroup acc₁).map groupKey = (l₂.foldl insertGroup acc₂).map groupKey := by
  induction l₁ generalizing l₂ with
  | nil =>
    cases l₂ with
    | nil => intro _ _ hacc; exact hacc
    | cons y l₂ => simp at h
  | cons x l ih =>
    cases l₂ with
    | nil => simp at h
    | cons y l₂ =>
      simp only [List.map_cons, List.cons.injEq] at h
      intro acc₁ acc₂ hacc
      rw [List.foldl_cons, List.foldl_cons]
      exact ih h.2 (insertGroup_congr hacc h.1)

lemma groupTools_congr {ts₁ ts₂ : List Tool} (h : ts₁.map toolKey = ts₂.map toolKey) :
    (groupTools ts₁).map groupKey = (groupTools ts₂).map groupKey :=
  foldl_insertGroup_congr h rfl

lemma positionRing_congr {mm0 : Option ℚ × Option ℚ} {ts₁ ts₂ : List Tool}
    (h : ts₁.map Tool.id = ts₂.map Tool.id) :
    (positionRing mm0 ts₁).map placedPos = (positionRing mm0 ts₂).map placedPos := by
  have hlen : ts₁.length = ts₂.length := by
    have h' := congrArg List.length h
    simpa using h'
  apply List.ext_getElem
  · simp [positionRing_length, hlen]
  · intro i h₁ h₂
    have hi₁ : i < ts₁.length := by
      simpa [positionRing_length] using h₁
    have hi₂ : i < ts₂.length := by
      simpa [positionRing_length] using h₂
    have hid : ts₁[i].id = ts₂[i].id := by
      have h' := congrArg (fun l : List String => l[i]?) h
      simpa [List.getElem?_map, List.getElem?_eq_getElem, hi₁, hi₂] using h'
    rw [List.getElem_map, List.getElem_map,
      positionRing_getElem mm0 ts₁ i hi₁, positionRing_getElem mm0 ts₂ i hi₂]
    simp [placedPos, placeTool, hid, hlen]

lemma positionToolsWith_congr (mm : String → Option ℚ × Option ℚ) {ts₁ ts₂ : List Tool}
    (h : ts₁.map toolKey = ts₂.map toolKey) :
    (positionToolsWith mm ts₁).map placedPos = (positionToolsWith mm ts₂).map placedPos := by
  unfold positionToolsWith
  rw [List.map_flatMap, List.map_flatMap, List.flatMap_def, List.flatMap_def]
  refine congrArg List.flatten ?_
  refine map_congr_of_proj (groupTools_congr h) _ _ ?_
  intro x y hxy
  have hx1 : x.1 = y.1 := by
    have h' := congrArg Prod.fst hxy
    simpa [groupKey] using h'
  have hx2 : x.2.map toolKey = y.2.map toolKey := by
    have h' := congrArg Prod.snd hxy
    simpa [groupKey] using h'
  have hid : x.2.map Tool.id = y.2.map Tool.id := by
    have h' := congrArg (List.map Prod.fst) hx2
    rw [List.map_map, List.map_map] at h'
    exact h'
  rw [hx1]
  exact positionRing_congr hid

/-! A Forall₂ builder over flatMap with a common spine. -/

lemma forall₂_flatMap {α β : Type} {R : β → β → Prop} {G : List α} {fA fB : α → List β}
    (h : ∀ g ∈ G, List.Forall₂ R (fA g) (fB g)) :
    List.Forall₂ R (G.flatMap fA) (G.flatMap fB) := by
  induction G with
  | nil => exact List.Forall₂.nil
  | cons g G ih =>
    rw [List.flatMap_cons, List.flatMap_cons]
    exact List.rel_append (h g (List.mem_cons_self g G))
      (ih fun g' hg' => h g' (List.mem_cons_of_mem g hg'))

/-! Strict ordering of the final angles inside one ring. -/

lemma positionRing_pairwise (mm0 : Option ℚ × Option ℚ) (tsg : List Tool) :
    List.Pairwise (fun p q : Placed => p.angleFrac < q.angleFrac) (positionRing mm0 tsg) := by
  rw [List.pairwise_iff_get]
  intro i j hij
  have hi : (i : ℕ) < tsg.length := by simpa [positionRing_length] using i.isLt
  have hj : (j : ℕ) < tsg.length := by simpa [positionRing_length] using j.isLt
  rw [List.get_eq_getElem, List.get_eq_getElem,
    positionRing_getElem mm0 tsg i hi (by simpa [positionRing_length] using i.isLt),
    positionRing_getElem mm0 tsg j hj (by simpa [positionRing_length] using j.isLt),
    placeTool_angleFrac, placeTool_angleFrac]
  exact angleFrac_lt hij _ _ (angleRandom_upper _) (angleRandom_lower _)

lemma positionToolsWith_pairwise (mm : String → Option ℚ × Option ℚ) (ts : List Tool) :
    List.Pairwise
      (fun p q : Placed => p.tool.assessment = q.tool.assessment → p.angleFrac < q.angleFrac)
      (positionToolsWith mm ts) := by
  unfold positionToolsWith
  rw [List.flatMap_def, List.pairwise_flatten]
  constructor
  · intro l hl
    obtain ⟨g, hg, rfl⟩ := List.mem_map.mp hl
    exact (positionRing_pairwise _ _).imp (fun h => fun _ => h)
  · rw [List.pairwise_map]
    have hnd := groupTools_keys_nodup ts
    have hp : List.Pairwise (fun g₁ g₂ : String × List Tool => g₁.1 ≠ g₂.1) (groupTools ts) :=
      List.pairwise_map.mp hnd
    refine List.Pairwise.imp_of_mem ?_ hp
    intro g₁ g₂ h₁ h₂ hne x hx y hy heq
    have hx' : x.tool.assessment = g₁.1 :=
      group_pure h₁ x.tool (tool_mem_of_mem_positionRing hx)
    have hy' : y.tool.assessment = g₂.1 :=
      group_pure h₂ y.tool (tool_mem_of_mem_positionRing hy)
    exact absurd (hx' ▸ hy' ▸ heq) hne

/-! Pointwise relation between the two variants of positionTools. -/

lemma ringMinMax_eq_of_ne_aware (rr : RingRadii) {a : String} (h : a ≠ "aware") :
    ringMinMaxA rr a = ringMinMaxB rr a := by
  unfold ringMinMaxA ringMinMaxB
  rw [if_neg h]
  by_cases ha : a = "adopt"
  · rw [if_pos ha, if_pos ha]
  · rw [if_neg ha, if_neg ha]

lemma variant_group (rr : RingRadii) (a : String) (tsg : List Tool)
    (hpure : ∀ t ∈ tsg, t.assessment = a) :
    List.Forall₂ (variantRel rr)
      (positionRing (ringMinMaxA rr a) tsg) (positionRing (ringMinMaxB rr a) tsg) := by
  unfold positionRing
  rw [List.forall₂_map_left_iff, List.forall₂_map_right_iff, List.forall₂_same]
  intro x hx
  have hx2 : x.2 ∈ tsg := by
    rw [List.mem_enum_iff_getElem?] at hx
    exact List.getElem?_mem hx
  have hass : x.2.assessment = a := hpure x.2 hx2
  refine ⟨rfl, rfl, ?_, ?_⟩
  · intro hne
    have hne' : a ≠ "aware" := by
      intro he
      exact hne (by rw [show (placeTool (ringMinMaxA rr a) tsg.length x.1 x.2).tool = x.2
        from rfl, hass, he])
    rw [ringMinMax_eq_of_ne_aware rr hne']
  · intro haw hlt
    have haw' : a = "aware" := by
      rw [show (placeTool (ringMinMaxA rr a) tsg.length x.1 x.2).tool = x.2 from rfl] at haw
      rw [← hass]
      exact haw
    subst haw'
    rw [show (placeTool (ringMinMaxA rr "aware") tsg.length x.1 x.2).radius
        = jitterRadius (ringMinMaxA rr "aware") (radiusRandom x.2.id) from rfl,
      show (placeTool (ringMinMaxB rr "aware") tsg.length x.1 x.2).radius
        = jitterRadius (ringMinMaxB rr "aware") (radiusRandom x.2.id) from rfl,
      ringMinMaxA_aware, ringMinMaxB_aware, jitterRadius, jitterRadius]
    intro heq
    simp only [Option.some.injEq] at heq
    have hf := radiusRandom_nonneg x.2.id
    nlinarith [heq, hlt, hf]

lemma variants_forall₂ (rr : RingRadii) (ts : List Tool) :
    List.Forall₂ (variantRel rr) (positionTools rr ts) (positionToolsB rr ts) := by
  unfold positionTools positionToolsB positionToolsWith
  exact forall₂_flatMap (fun g hg => variant_group rr g.1 g.2 (group_pure hg))

/-! Evaluation of the label radius tables. -/

lemma ringLabelRadiiA_eq (rr : RingRadii) (maxR : ℚ) :
    ringLabelRadiiA rr maxR
      = [("adopt", some (rr.adopt * (3/5))),
        ("trial", some ((rr.adopt + rr.trial) / 2)),
        ("evaluate", some ((rr.trial + rr.evaluate) / 2)),
        ("aware", some (rr.evaluate + (maxR - rr.evaluate) * (2/5)))] := rfl

lemma ringLabelRadiiB_eq (rr : RingRadii) :
    ringLabelRadiiB rr
      = [("adopt", some (rr.adopt * (3/5))),
        ("trial", some ((rr.adopt + rr.trial) / 2)),
        ("evaluate", some ((rr.trial + rr.evaluate) / 2)),
        ("aware", some ((rr.evaluate + rr.aware) / 2))] := rfl

example : hashCode "a" = 97 := by decide
example : hashCode "aa" = 3104 := by decide
example : radiusRandom "a" = 97/100 := by
  norm_num [radiusRandom, show hashCode "a" = 97 from by decide]
example : angleRandom "a" = 29/100 := by
  norm_num [angleRandom, show hashCode "a" = 97 from by decide]
example : rr100 = { adopt := 25, trial := 45, evaluate := 70, aware := 95 } := by
  norm_num [rr100, componentRingRadii]
example : positionTools rr100 [mkTool "a" "adopt"]
    = [{ tool := mkTool "a" "adopt", radius := some (86/5), angleFrac := 1087/4000 }] := by
  simp [positionTools, positionToolsWith, groupTools, insertGroup, positionRing,
    placeTool, jitterRadius, ringMinMaxA, RingRadii.lookup, angleStepFrac,
    radiusRandom, angleRandom, rr100, componentRingRadii, mkTool,
    show hashCode "a" = 97 from by decide, List.foldl, List.flatMap, List.enum]
  norm_num

/-! Concrete evaluations used by the witnesses. -/

lemma positionTools_rr100_toolA : positionTools rr100 [toolA] = [pA] := by
  simp [positionTools, positionToolsWith, groupTools, insertGroup, positionRing,
    placeTool, jitterRadius, ringMinMaxA, RingRadii.lookup, angleStepFrac,
    radiusRandom, angleRandom, rr100, componentRingRadii, toolA, mkTool, pA,
    show hashCode "a" = 97 from by decide, List.foldl, List.flatMap, List.enum]
  norm_num

lemma rr100_nested : rr100.Nested := by
  norm_num [RingRadii.Nested, rr100, componentRingRadii]

/-! ## Claim C1 -/

/-- C1 counterexample: a tool whose category is the unrecognized string
"bogus" is not excluded by positionTools: it is still emitted (with an
undefined radius), so the output for a single bogus tool has one entry
where the claim requires none. -/
theorem unrecognized_tool_not_excluded :
    (positionTools rr100 [toolX]).map Placed.tool = [toolX]
      ∧ (positionTools rr100 [toolX]).map Placed.radius = [none]
      ∧ recognizedCat "bogus" = false := by
  refine ⟨?_, ?_, by decide⟩
  · exact List.perm_singleton.mp (positionToolsWith_tools_perm (ringMinMaxA rr100) [toolX])
  · simp [positionTools, positionToolsWith, groupTools, insertGroup, positionRing,
      placeTool, jitterRadius, ringMinMaxA, RingRadii.lookup, jsIndexOf, jsGet,
      RING_ORDER, List.findIdx?, toolX, mkTool, List.foldl, List.flatMap, List.enum]

/-- C1 amended: positionTools emits exactly one placed tool per input
tool, with the whole record preserved, regardless of the category; a
placed tool has a defined radius exactly when its category is one of the
four recognized values, so unrecognized-category tools are emitted with
an undefined (NaN) radius rather than being excluded, and no error is
raised (the function is total). -/
theorem positionTools_complete (rr : RingRadii) (ts : List Tool) :
    List.Perm ((positionTools rr ts).map Placed.tool) ts
      ∧ ∀ p ∈ positionTools rr ts, p.radius.isSome = recognizedCat p.tool.assessment :=
  ⟨positionToolsWith_tools_perm _ ts, fun _ hp => radius_isSome_iffA hp⟩

/-- Witness for the amended C1 at a concrete input. -/
theorem positionTools_complete_witness :
    List.Perm ((positionTools rr100 [toolA]).map Placed.tool) [toolA]
      ∧ pA.radius.isSome = recognizedCat pA.tool.assessment :=
  ⟨(positionTools_complete rr100 [toolA]).1,
    (positionTools_complete rr100 [toolA]).2 pA
      (by rw [positionTools_rr100_toolA]; exact List.mem_singleton_self pA)⟩

/-! ## Claim C2 -/

/-- C2: the position assignment is deterministic.  Two calls with
identical ring table and tool collection give identical outputs (there
is no random or time dependent input), and more strongly the radius and
angle data of the output depend only on the sequence of (id, assessment)
pairs of the input, since the jitter is derived from the id hash and the
index within the category group alone. -/
theorem positionTools_deterministic (rr₁ rr₂ : RingRadii) (ts₁ ts₂ : List Tool) :
    (rr₁ = rr₂ → ts₁ = ts₂ → positionTools rr₁ ts₁ = positionTools rr₂ ts₂)
      ∧ (ts₁.map toolKey = ts₂.map toolKey →
          (positionTools rr₁ ts₁).map placedPos = (positionTools rr₁ ts₂).map placedPos) := by
  constructor
  · rintro rfl rfl
    rfl
  · intro h
    exact positionToolsWith_congr _ h

/-- Witness for C2: the determinism conclusion at a concrete table and
collection, and invariance of the position data under a change of the
display fields only. -/
theorem positionTools_deterministic_witness :
    positionTools rr100 [toolA] = positionTools rr100 [toolA]
      ∧ (positionTools rr100 [toolA]).map placedPos
          = (positionTools rr100 [toolA2]).map placedPos :=
  ⟨(positionTools_deterministic rr100 rr100 [toolA] [toolA]).1 rfl rfl,
    (positionTools_deterministic rr100 rr100 [toolA] [toolA2]).2 rfl⟩

/-! ## Claim C3 -/

/-- C3 counterexample: in the main variant an aware tool can receive a
radius below inner + 0.3 * span for its ring (inner = evaluate radius,
outer = aware radius in the nested table), because the aware branch only
uses 80 percent of the span: with the rr100 table and id "aa" the radius
is 76.32 while the claimed band starts at 77.5. -/
theorem aware_radius_below_band :
    (positionTools rr100 [toolAw]).map Placed.radius = [some (1908/25)]
      ∧ (1908/25 : ℚ) < rr100.evaluate + (rr100.aware - rr100.evaluate) * (3/10) := by
  constructor
  · simp [positionTools, positionToolsWith, groupTools, insertGroup, positionRing,
      placeTool, jitterRadius, ringMinMaxA, RingRadii.lookup, angleStepFrac,
      radiusRandom, angleRandom, rr100, componentRingRadii, toolAw, mkTool,
      show hashCode "aa" = 3104 from by decide, List.foldl, List.flatMap, List.enum]
    norm_num
  · norm_num [rr100, componentRingRadii]

/-- C3 amended: for a nested ring table, every defined radius of the main
variant lies in the claimed band inner + [0.3, 0.7] * span for the adopt,
trial and evaluate rings, while for the aware ring it lies in the band
inner + [0.24, 0.56] * span (hence still strictly inside the ring
boundaries); in the part_000 variant the claimed band inner + [0.3, 0.7]
* span holds for all four rings. -/
theorem positionTools_radius_bands (rr : RingRadii) (hw : rr.Nested) (ts : List Tool) :
    (∀ p ∈ positionTools rr ts, ∀ r : ℚ, p.radius = some r → bandA rr p.tool.assessment r)
      ∧ (∀ p ∈ positionToolsB rr ts, ∀ r : ℚ, p.radius = some r →
          bandB rr p.tool.assessment r) := by
  obtain ⟨hw0, hw1, hw2, hw3⟩ := hw
  constructor
  · intro p hp r hr
    obtain ⟨mn, mx, hre, hc⟩ := radius_casesA hp hr
    have hf0 := radiusRandom_nonneg p.tool.id
    have hf1 := radiusRandom_le p.tool.id
    rcases hc with ⟨ha, rfl, rfl⟩ | ⟨ha, rfl, rfl⟩ | ⟨ha, rfl, rfl⟩ | ⟨ha, rfl, rfl⟩ <;>
      rw [ha] <;> unfold bandA
    · have hl := jitterRadius_lower (0) (rr.adopt) (radiusRandom p.tool.id) hw0 hf0
      have hu := jitterRadius_upper (0) (rr.adopt) (radiusRandom p.tool.id) hw0 hf1
      exact ⟨fun _ => ⟨by rw [hre]; linarith, by rw [hre]; linarith⟩,
        fun hc => absurd hc (by decide), fun hc => absurd hc (by decide),
        fun hc => absurd hc (by decide)⟩
    · have hl := jitterRadius_lower (rr.adopt) (rr.trial) (radiusRandom p.tool.id) hw1 hf0
      have hu := jitterRadius_upper (rr.adopt) (rr.trial) (radiusRandom p.tool.id) hw1 hf1
      exact ⟨fun hc => absurd hc (by decide),
        fun _ => ⟨by rw [hre]; linarith, by rw [hre]; linarith⟩,
        fun hc => absurd hc (by decide), fun hc => absurd hc (by decide)⟩
    · have hl := jitterRadius_lower (rr.trial) (rr.evaluate) (radiusRandom p.tool.id) hw2 hf0
      have hu := jitterRadius_upper (rr.trial) (rr.evaluate) (radiusRandom p.tool.id) hw2 hf1
      exact ⟨fun hc => absurd hc (by decide), fun hc => absurd hc (by decide),
        fun _ => ⟨by rw [hre]; linarith, by rw [hre]; linarith⟩,
        fun hc => absurd hc (by decide)⟩
    · have hmm : rr.evaluate ≤ rr.evaluate + (rr.aware - rr.evaluate) * (4/5) := by linarith
      have hl := jitterRadius_lower rr.evaluate
        (rr.evaluate + (rr.aware - rr.evaluate) * (4/5)) (radiusRandom p.tool.id) hmm hf0
      have hu := jitterRadius_upper rr.evaluate
        (rr.evaluate + (rr.aware - rr.evaluate) * (4/5)) (radiusRandom p.tool.id) hmm hf1
      exact ⟨fun hc => absurd hc (by decide), fun hc => absurd hc (by decide),
        fun hc => absurd hc (by decide),
        fun _ => ⟨by rw [hre]; linarith, by rw [hre]; linarith,
          by rw [hre]; linarith, by rw [hre]; linarith⟩⟩
  · intro p hp r hr
    obtain ⟨mn, mx, hre, hc⟩ := radius_casesB hp hr
    have hf0 := radiusRandom_nonneg p.tool.id
    have hf1 := radiusRandom_le p.tool.id
    rcases hc with ⟨ha, rfl, rfl⟩ | ⟨ha, rfl, rfl⟩ | ⟨ha, rfl, rfl⟩ | ⟨ha, rfl, rfl⟩ <;>
      rw [ha] <;> unfold bandB
    · have hl := jitterRadius_lower (0) (rr.adopt) (radiusRandom p.tool.id) hw0 hf0
      have hu := jitterRadius_upper (0) (rr.adopt) (radiusRandom p.tool.id) hw0 hf1
      exact ⟨fun _ => ⟨by rw [hre]; linarith, by rw [hre]; linarith⟩,
        fun hc => absurd hc (by decide), fun hc => absurd hc (by decide),
        fun hc => absurd hc (by decide)⟩
    · have hl := jitterRadius_lower (rr.adopt) (rr.trial) (radiusRandom p.tool.id) hw1 hf0
      have hu := jitterRadius_upper (rr.adopt) (rr.trial) (radiusRandom p.tool.id) hw1 hf1
      exact ⟨fun hc => absurd hc (by decide),
        fun _ => ⟨by rw [hre]; linarith, by rw [hre]; linarith⟩,
        fun hc => absurd hc (by decide), fun hc => absurd hc (by decide)⟩
    · have hl := jitterRadius_lower (rr.trial) (rr.evaluate) (radiusRandom p.tool.id) hw2 hf0
      have hu := jitterRadius_upper (rr.trial) (rr.evaluate) (radiusRandom p.tool.id) hw2 hf1
      exact ⟨fun hc => absurd hc (by decide), fun hc => absurd hc (by decide),
        fun _ => ⟨by rw [hre]; linarith, by rw [hre]; linarith⟩,
        fun hc => absurd hc (by decide)⟩
    · have hl := jitterRadius_lower (rr.evaluate) (rr.aware) (radiusRandom p.tool.id) hw3 hf0
      have hu := jitterRadius_upper (rr.evaluate) (rr.aware) (radiusRandom p.tool.id) hw3 hf1
      exact ⟨fun hc => absurd hc (by decide), fun hc => absurd hc (by decide),
        fun hc => absurd hc (by decide),
        fun _ => ⟨by rw [hre]; linarith, by rw [hre]; linarith⟩⟩

/-- Witness for the amended C3 at a concrete input. -/
theorem positionTools_radius_bands_witness :
    rr100.Nested ∧ bandA rr100 "adopt" (86/5) :=
  ⟨rr100_nested,
    (positionTools_radius_bands rr100 rr100_nested [toolA]).1 pA
      (by rw [positionTools_rr100_toolA]; exact List.mem_singleton_self pA) (86/5) rfl⟩

/-! ## Claim C4 -/

/-- C4 counterexample: the output is not ordered by the fixed category
order of the ring table.  With a trial tool listed before an adopt tool,
the trial placement precedes the adopt placement, because the grouping
object enumerates its keys in insertion order (order of first appearance
in the input), not in RING_ORDER. -/
theorem output_not_in_ring_order :
    ¬ List.Pairwise
        (fun p q : Placed => ringRank p.tool.assessment ≤ ringRank q.tool.assessment)
        (positionTools rr100 [toolT, toolD]) := by
  intro h
  have heval : (positionTools rr100 [toolT, toolD]).map (fun p => p.tool.assessment)
      = ["trial", "adopt"] := by
    simp [positionTools, positionToolsWith, groupTools, insertGroup, positionRing,
      placeTool, toolT, toolD, mkTool, List.foldl, List.flatMap, List.enum]
  have h' : List.Pairwise (fun x y : String => ringRank x ≤ ringRank y)
      ((positionTools rr100 [toolT, toolD]).map (fun p => p.tool.assessment)) :=
    List.Pairwise.map (fun p : Placed => p.tool.assessment) (fun _ _ hr => hr) h
  rw [heval, List.pairwise_cons] at h'
  have := h'.1 "adopt" (List.mem_singleton_self "adopt")
  simp [ringRank] at this

/-- C4 amended: the output of either variant of positionTools is a
concatenation of one block per category, the blocks appearing in order of
the first appearance of each category in the input (the insertion order
of the grouping object), and within each category the tools keep their
original relative input order (filtering the output by a category gives
exactly the filtered input). -/
theorem positionTools_grouped_order (rr : RingRadii) (ts : List Tool) :
    ((∀ a : String,
        ((positionTools rr ts).filter (fun p => p.tool.assessment = a)).map Placed.tool
          = ts.filter (fun t => t.assessment = a))
      ∧ ∃ blocks : List (String × List Placed),
          (blocks.map Prod.fst).Nodup
          ∧ blocks.map Prod.fst = firstKeys (ts.map Tool.assessment)
          ∧ positionTools rr ts = blocks.flatMap Prod.snd
          ∧ ∀ b ∈ blocks, ∀ p ∈ b.2, p.tool.assessment = b.1)
      ∧ ((∀ a : String,
        ((positionToolsB rr ts).filter (fun p => p.tool.assessment = a)).map Placed.tool
          = ts.filter (fun t => t.assessment = a))
      ∧ ∃ blocks : List (String × List Placed),
          (blocks.map Prod.fst).Nodup
          ∧ blocks.map Prod.fst = firstKeys (ts.map Tool.assessment)
          ∧ positionToolsB rr ts = blocks.flatMap Prod.snd
          ∧ ∀ b ∈ blocks, ∀ p ∈ b.2, p.tool.assessment = b.1) := by
  have key : ∀ mm : String → Option ℚ × Option ℚ,
      (∀ a : String,
        ((positionToolsWith mm ts).filter (fun p => p.tool.assessment = a)).map Placed.tool
          = ts.filter (fun t => t.assessment = a))
      ∧ ∃ blocks : List (String × List Placed),
          (blocks.map Prod.fst).Nodup
          ∧ blocks.map Prod.fst = firstKeys (ts.map Tool.assessment)
          ∧ positionToolsWith mm ts = blocks.flatMap Prod.snd
          ∧ ∀ b ∈ blocks, ∀ p ∈ b.2, p.tool.assessment = b.1 := by
    intro mm
    refine ⟨positionToolsWith_filter mm ts,
      (groupTools ts).map (fun g => (g.1, positionRing (mm g.1) g.2)), ?_, ?_, ?_, ?_⟩
    · rw [List.map_map]
      exact groupTools_keys_nodup ts
    · rw [List.map_map]
      exact groupTools_keys ts
    · unfold positionToolsWith
      rw [List.flatMap_map]
    · intro b hb p hp
      obtain ⟨g, hg, rfl⟩ := List.mem_map.mp hb
      exact group_pure hg p.tool (tool_mem_of_mem_positionRing hp)
  exact ⟨key (ringMinMaxA rr), key (ringMinMaxB rr)⟩

/-- Witness for the amended C4 at a concrete input: the trial filter of
the output recovers the trial tool. -/
theorem positionTools_grouped_order_witness :
    ((positionTools rr100 [toolT, toolD]).filter
        (fun p => p.tool.assessment = "trial")).map Placed.tool = [toolT] :=
  ((positionTools_grouped_order rr100 [toolT, toolD]).1.1 "trial").trans
    (by simp [toolT, toolD, mkTool])

/-! ## Claim C5 -/

/-- C5: base angles are nondecreasing in the index (second conjunct,
with base angle index i placed at (i + 1) steps), and the final jittered
angles of two same-category tools never cross: whenever a placed tool
precedes another placed tool of the same category in the output (which
by the order preservation of the grouping is exactly the input order),
its final angle is strictly smaller, since the jitter magnitude is at
most 0.3 * 0.5 of one step while consecutive base angles are a full step
apart. -/
theorem positionTools_no_angle_crossover (rr : RingRadii) (ts : List Tool) :
    List.Pairwise
      (fun p q : Placed => p.tool.assessment = q.tool.assessment →
        p.angleFrac < q.angleFrac)
      (positionTools rr ts)
      ∧ ∀ n i j : ℕ, i ≤ j →
          angleStepFrac n * ((i : ℚ) + 1) ≤ angleStepFrac n * ((j : ℚ) + 1) := by
  refine ⟨positionToolsWith_pairwise _ ts, ?_⟩
  intro n i j hij
  have hs := angleStepFrac_pos n
  have hij' : ((i : ℚ) + 1) ≤ ((j : ℚ) + 1) := by
    have : (i : ℚ) ≤ (j : ℚ) := by exact_mod_cast hij
    linarith
  nlinarith

/-- Witness for C5 at a concrete input. -/
theorem positionTools_no_angle_crossover_witness :
    List.Pairwise
      (fun p q : Placed => p.tool.assessment = q.tool.assessment →
        p.angleFrac < q.angleFrac)
      (positionTools rr100 [toolT, toolD])
      ∧ angleStepFrac 2 * ((0 : ℚ) + 1) ≤ angleStepFrac 2 * ((1 : ℚ) + 1) :=
  ⟨(positionTools_no_angle_crossover rr100 [toolT, toolD]).1,
    (positionTools_no_angle_crossover rr100 [toolT, toolD]).2 2 0 1 (by norm_num)⟩

/-! ## Claim C6 -/

/-- C6 counterexample: the label radius of the innermost (adopt) ring is
not the midpoint of its bounds: with the rr100 table it is 25 * 0.6 = 15
while the midpoint of (0, 25) is 12.5. -/
theorem adopt_label_not_midpoint :
    (ringLabelRadiiA rr100 100).head? = some ("adopt", some 15)
      ∧ ((0 : ℚ) + rr100.adopt) / 2 ≠ 15 := by
  constructor
  · rw [ringLabelRadiiA_eq]
    norm_num [rr100, componentRingRadii]
  · norm_num [rr100, componentRingRadii]

/-- C6 amended: the label anchor sits in the 45 degree direction (with a
6 unit text baseline shift on y); the trial and evaluate labels use the
midpoint of their ring bounds, the adopt label uses 60 percent of its
outer radius rather than the midpoint, the aware label of the main
variant uses the radius interpolated 40 percent of the way from the
evaluate radius to the available radius, and the part_000 variant uses
the plain midpoint of the evaluate and aware radii for the aware label. -/
theorem ring_label_radii (rr : RingRadii) (maxR : ℚ) :
    ringLabelRadiiA rr maxR
        = [("adopt", some (rr.adopt * (3/5))),
          ("trial", some ((rr.adopt + rr.trial) / 2)),
          ("evaluate", some ((rr.trial + rr.evaluate) / 2)),
          ("aware", some (rr.evaluate + (maxR - rr.evaluate) * (2/5)))]
      ∧ ringLabelRadiiB rr
        = [("adopt", some (rr.adopt * (3/5))),
          ("trial", some ((rr.adopt + rr.trial) / 2)),
          ("evaluate", some ((rr.trial + rr.evaluate) / 2)),
          ("aware", some ((rr.evaluate + rr.aware) / 2))]
      ∧ ∀ cx cy r : ℝ, labelAnchor cx cy r
          = (cx - r * Real.cos (Real.pi / 4), cy - r * Real.sin (Real.pi / 4) + 6) :=
  ⟨ringLabelRadiiA_eq rr maxR, ringLabelRadiiB_eq rr, fun _ _ _ => rfl⟩

/-! ## Claim C7 -/

lemma radius_nonneg_A {rr : RingRadii} {ts : List Tool} {p : Placed} (hw : rr.Nested)
    (hp : p ∈ positionTools rr ts) {r : ℚ} (hr : p.radius = some r) : 0 ≤ r := by
  obtain ⟨hw0, hw1, hw2, hw3⟩ := hw
  obtain ⟨mn, mx, hre, hc⟩ := radius_casesA hp hr
  have hf0 := radiusRandom_nonneg p.tool.id
  have hf1 := radiusRandom_le p.tool.id
  rcases hc with ⟨-, rfl, rfl⟩ | ⟨-, rfl, rfl⟩ | ⟨-, rfl, rfl⟩ | ⟨-, rfl, rfl⟩ <;>
    rw [hre] <;>
    nlinarith [mul_nonneg hw0 hf0, mul_nonneg (sub_nonneg.mpr hw1) hf0,
      mul_nonneg (sub_nonneg.mpr hw2) hf0, mul_nonneg (sub_nonneg.mpr hw3) hf0]

lemma radius_nonneg_B {rr : RingRadii} {ts : List Tool} {p : Placed} (hw : rr.Nested)
    (hp : p ∈ positionToolsB rr ts) {r : ℚ} (hr : p.radius = some r) : 0 ≤ r := by
  obtain ⟨hw0, hw1, hw2, hw3⟩ := hw
  obtain ⟨mn, mx, hre, hc⟩ := radius_casesB hp hr
  have hf0 := radiusRandom_nonneg p.tool.id
  have hf1 := radiusRandom_le p.tool.id
  rcases hc with ⟨-, rfl, rfl⟩ | ⟨-, rfl, rfl⟩ | ⟨-, rfl, rfl⟩ | ⟨-, rfl, rfl⟩ <;>
    rw [hre] <;>
    nlinarith [mul_nonneg hw0 hf0, mul_nonneg (sub_nonneg.mpr hw1) hf0,
      mul_nonneg (sub_nonneg.mpr hw2) hf0, mul_nonneg (sub_nonneg.mpr hw3) hf0]

lemma placed_angle_mem {mm : String → Option ℚ × Option ℚ} {ts : List Tool} {p : Placed}
    (hp : p ∈ positionToolsWith mm ts) : 0 ≤ p.angle ∧ p.angle ≤ Real.pi / 2 := by
  obtain ⟨h0, h1⟩ := placed_angleFrac_bounds hp
  unfold Placed.angle
  constructor
  · apply mul_nonneg
    · exact_mod_cast le_of_lt h0
    · exact Real.pi_pos.le
  · have hle : (p.angleFrac : ℝ) ≤ 1/2 := by
      have h2 : p.angleFrac ≤ 1/2 := le_of_lt h1
      have h3 : ((p.angleFrac : ℚ) : ℝ) ≤ ((1/2 : ℚ) : ℝ) := Rat.cast_le.mpr h2
      simpa using h3
    nlinarith [Real.pi_pos]

/-- C7: the Cartesian coordinates are cx - radius * cos(angle) and
cy - radius * sin(angle), and for every placed tool of either variant
with a defined radius (its category is then recognized) both coordinates
stay at or below the center coordinates, i.e. placement lies in the
quadrant extending up and left of the center. -/
theorem positionTools_quadrant (rr : RingRadii) (hw : rr.Nested) (ts : List Tool)
    (p : Placed) (hp : p ∈ positionTools rr ts ∨ p ∈ positionToolsB rr ts)
    (cx cy : ℝ) (r : ℚ) (hr : p.radius = some r) :
    p.posX cx = some (cx - (r : ℝ) * Real.cos p.angle)
      ∧ p.posY cy = some (cy - (r : ℝ) * Real.sin p.angle)
      ∧ cx - (r : ℝ) * Real.cos p.angle ≤ cx
      ∧ cy - (r : ℝ) * Real.sin p.angle ≤ cy := by
  have hrq : (0 : ℚ) ≤ r := by
    rcases hp with hp | hp
    · exact radius_nonneg_A hw hp hr
    · exact radius_nonneg_B hw hp hr
  have hrR : (0 : ℝ) ≤ (r : ℝ) := by exact_mod_cast hrq
  have hang : 0 ≤ p.angle ∧ p.angle ≤ Real.pi / 2 := by
    rcases hp with hp | hp
    · exact placed_angle_mem hp
    · exact placed_angle_mem hp
  have hcos : 0 ≤ Real.cos p.angle :=
    Real.cos_nonneg_of_mem_Icc ⟨by linarith [hang.1, Real.pi_pos], hang.2⟩
  have hsin : 0 ≤ Real.sin p.angle :=
    Real.sin_nonneg_of_nonneg_of_le_pi hang.1 (by linarith [hang.2, Real.pi_pos])
  refine ⟨?_, ?_, ?_, ?_⟩
  · unfold Placed.posX
    rw [hr]
    rfl
  · unfold Placed.posY
    rw [hr]
    rfl
  · nlinarith [mul_nonneg hrR hcos]
  · nlinarith [mul_nonneg hrR hsin]

/-- Witness for C7 at a concrete input. -/
theorem positionTools_quadrant_witness :
    pA.posX 100 = some (100 - ((86/5 : ℚ) : ℝ) * Real.cos pA.angle)
      ∧ pA.posY 100 = some (100 - ((86/5 : ℚ) : ℝ) * Real.sin pA.angle)
      ∧ 100 - ((86/5 : ℚ) : ℝ) * Real.cos pA.angle ≤ 100
      ∧ 100 - ((86/5 : ℚ) : ℝ) * Real.sin pA.angle ≤ 100 :=
  positionTools_quadrant rr100 rr100_nested [toolA] pA
    (Or.inl (by rw [positionTools_rr100_toolA]; exact List.mem_singleton_self pA))
    100 100 (86/5) rfl

/-! ## Claim C8 -/

/-- C8: within a category holding n tools the quarter turn is divided
into n + 1 equal steps (angleStepFrac n is the step in units of pi, so
that (n + 1) steps make the quarter turn 1/2) and the tool at 0-based
index i receives base angle (i + 1) steps plus the bounded hash jitter;
a category with exactly one tool is placed at 1/4 pi (45 degrees) plus
jitter, and a category with no tools in the input contributes no placed
tool (and the step of each category depends only on the size of that
category itself, as the first conjunct shows). -/
theorem positionTools_angle_steps (rr : RingRadii) (ts : List Tool) :
    (∀ p ∈ positionTools rr ts,
        ∃ i : ℕ, i < (ts.filter (fun t => t.assessment = p.tool.assessment)).length
          ∧ p.angleFrac
              = angleStepFrac (ts.filter (fun t => t.assessment = p.tool.assessment)).length
                  * ((i : ℚ) + 1)
                + angleRandom p.tool.id
                  * angleStepFrac
                      (ts.filter (fun t => t.assessment = p.tool.assessment)).length
                  * (3/10))
      ∧ (∀ p ∈ positionTools rr ts,
          (ts.filter (fun t => t.assessment = p.tool.assessment)).length = 1 →
            p.angleFrac = 1/4 + angleRandom p.tool.id * (3/40))
      ∧ (∀ a : String, ts.filter (fun t => t.assessment = a) = [] →
          ∀ p ∈ positionTools rr ts, p.tool.assessment ≠ a) := by
  have part1 : ∀ p ∈ positionTools rr ts,
      ∃ i : ℕ, i < (ts.filter (fun t => t.assessment = p.tool.assessment)).length
        ∧ p.angleFrac
            = angleStepFrac (ts.filter (fun t => t.assessment = p.tool.assessment)).length
                * ((i : ℚ) + 1)
              + angleRandom p.tool.id
                * angleStepFrac
                    (ts.filter (fun t => t.assessment = p.tool.assessment)).length
                * (3/10) := by
    intro p hp
    obtain ⟨i, t, hget, he⟩ := placed_shape hp
    obtain ⟨hi, -⟩ := List.getElem?_eq_some.mp hget
    have htool : p.tool = t := by rw [he]; rfl
    rw [← htool] at he
    refine ⟨i, hi, ?_⟩
    conv_lhs => rw [he]
    exact placeTool_angleFrac _ _ _ _
  refine ⟨part1, ?_, ?_⟩
  · intro p hp hlen
    obtain ⟨i, hi, hfrac⟩ := part1 p hp
    rw [hlen] at hi hfrac
    have hi0 : i = 0 := Nat.lt_one_iff.mp hi
    rw [hi0] at hfrac
    rw [hfrac]
    norm_num [angleStepFrac]
    ring
  · intro a hempty p hp heq
    obtain ⟨i, t, hget, -⟩ := placed_shape hp
    rw [heq, hempty] at hget
    simp at hget

/-- Witness for C8 at a concrete input: the single adopt tool sits at the
45 degree base angle plus jitter, and no tool of an absent category is
placed. -/
theorem positionTools_angle_steps_witness :
    ((([toolA] : List Tool).filter
        (fun t => t.assessment = pA.tool.assessment)).length = 1
      ∧ pA.angleFrac = 1/4 + angleRandom pA.tool.id * (3/40))
      ∧ (([toolA] : List Tool).filter (fun t => t.assessment = "trial") = []
        ∧ pA.tool.assessment ≠ "trial") := by
  have hmem : pA ∈ positionTools rr100 [toolA] := by
    rw [positionTools_rr100_toolA]
    exact List.mem_singleton_self pA
  refine ⟨⟨by decide, ?_⟩, by decide, ?_⟩
  · exact (positionTools_angle_steps rr100 [toolA]).2.1 pA hmem (by decide)
  · exact (positionTools_angle_steps rr100 [toolA]).2.2 "trial" (by decide) pA hmem

/-! ## Claim C9 -/

/-- C9: the sector path is a pie slice from the center point when the
inner radius is 0 and a closed donut sector otherwise (outer arc with
sweep flag 0, inner arc traversed back with sweep flag 1, joined by two
radial segments); the ring outline is the single arc from the top point
(cx, cy - r) to the left point (cx - r, cy) with sweep flag 0; both arc
endpoints lie on the circle of radius r about the center and subtend a
right angle (a 90 degree arc) there. -/
theorem sector_arc_paths (cx cy innerRadius outerRadius r : ℚ) :
    ((innerRadius = 0 → sectorPath cx cy innerRadius outerRadius
        = [PathCmd.move cx cy,
            PathCmd.line cx (cy - outerRadius),
            PathCmd.arc outerRadius outerRadius 0 false false (cx - outerRadius) cy,
            PathCmd.close])
      ∧ (innerRadius ≠ 0 → sectorPath cx cy innerRadius outerRadius
        = [PathCmd.move cx (cy - innerRadius),
            PathCmd.line cx (cy - outerRadius),
            PathCmd.arc outerRadius outerRadius 0 false false (cx - outerRadius) cy,
            PathCmd.line (cx - innerRadius) cy,
            PathCmd.arc innerRadius innerRadius 0 false true cx (cy - innerRadius),
            PathCmd.close]))
      ∧ arcPath cx cy r
          = [PathCmd.move cx (cy - r), PathCmd.arc r r 0 false false (cx - r) cy]
      ∧ (cx - cx) ^ 2 + ((cy - r) - cy) ^ 2 = r ^ 2
      ∧ ((cx - r) - cx) ^ 2 + (cy - cy) ^ 2 = r ^ 2
      ∧ (cx - cx) * ((cx - r) - cx) + ((cy - r) - cy) * (cy - cy) = 0 := by
  refine ⟨⟨fun h => ?_, fun h => ?_⟩, rfl, by ring, by ring, by ring⟩
  · rw [sectorPath, if_pos h]
  · rw [sectorPath, if_neg h]

/-- Witness for C9 at concrete radii: both sector branches. -/
theorem sector_arc_paths_witness :
    sectorPath 100 100 0 45
        = [PathCmd.move 100 100,
            PathCmd.line 100 (100 - 45),
            PathCmd.arc 45 45 0 false false (100 - 45) 100,
            PathCmd.close]
      ∧ sectorPath 100 100 25 45
        = [PathCmd.move 100 (100 - 25),
            PathCmd.line 100 (100 - 45),
            PathCmd.arc 45 45 0 false false (100 - 45) 100,
            PathCmd.line (100 - 25) 100,
            PathCmd.arc 25 25 0 false true 100 (100 - 25),
            PathCmd.close] :=
  ⟨(sector_arc_paths 100 100 0 45 70).1.1 rfl,
    (sector_arc_paths 100 100 25 45 70).1.2 (by norm_num)⟩

/-! ## Claim C10 -/

/-- C10: with the same ring table and input collection, the two radar
variants place every tool whose category is not aware identically (the
whole placed record is equal, hence the same radius, angle, x and y),
and the tools of both outputs agree pointwise with equal angles; for an
aware tool the radii differ whenever the aware band is nondegenerate
(evaluate radius strictly below aware radius), because the main variant
confines the aware radius to 80 percent of the band. -/
theorem variants_agree_except_aware (rr : RingRadii) (ts : List Tool) :
    List.Forall₂ (variantRel rr) (positionTools rr ts) (positionToolsB rr ts) := by
  unfold positionTools positionToolsB positionToolsWith
  exact forall₂_flatMap (fun g hg => variant_group rr g.1 g.2 (group_pure hg))

/-- Witness for C10 at a concrete input. -/
theorem variants_agree_except_aware_witness :
    List.Forall₂ (variantRel rr100) (positionTools rr100 [toolAw])
      (positionToolsB rr100 [toolAw]) :=
  variants_agree_except_aware rr100 [toolAw]

end Radar
